import Mathlib

/-!
# Verification of the NoteRoom note store

Shallow embedding of `src/utils/storage.ts` (the `storage` object) together
with the type definitions of `src/types/notes.ts`.  The browser's
`localStorage` slot under the key `noteroom-notes` is modelled by the
`StoredData` state: either no value is present, a value is present but fails
to parse, or a parsed array of notes is present.  `Date.now()` and
`crypto.randomUUID()` are modelled as explicit parameters (`now`, `freshId`)
of the operations that call them.
-/

set_option autoImplicit false

/-- `NoteType` from `types/notes.ts`: `'note' | 'todo' | 'snippet'`. -/
inductive NoteType where
  | note
  | todo
  | snippet
deriving DecidableEq, Repr

/-- `Note` from `types/notes.ts`.  Optional fields (`tags?`, `completed?`,
`title?`) are `Option`s; timestamps are milliseconds since epoch as `Nat`. -/
structure Note where
  id : String
  type : NoteType
  content : String
  createdAt : Nat
  updatedAt : Nat
  tags : Option (List String) := Option.none
  completed : Option Bool := Option.none
  title : Option String := Option.none
deriving DecidableEq, Repr

/-- The type filter of `NoteFilters`: `NoteType | 'all'`. -/
inductive TypeFilter where
  | all
  | only (t : NoteType)
deriving DecidableEq, Repr

/-- `NoteFilters` from `types/notes.ts`: `searchQuery` is required,
`typeFilter?` is optional (may be omitted, i.e. `undefined`). -/
structure NoteFilters where
  searchQuery : String
  typeFilter : Option TypeFilter := Option.none
deriving DecidableEq, Repr

/-- The state of the `localStorage` slot under the key `noteroom-notes`:
no value (`localStorage.getItem` returns null), an unparsable value
(`JSON.parse` throws), or a parsed array of notes. -/
inductive StoredData where
  | empty
  | corrupt
  | notes (ns : List Note)
deriving DecidableEq, Repr

/-- `storage.getAll`: returns the parsed array, or `[]` when no value is
stored or when parsing throws (the error is caught and logged). -/
def storage.getAll : StoredData → List Note
  | StoredData.empty => []
  | StoredData.corrupt => []
  | StoredData.notes ns => ns

/-- `storage.saveAll`: serializes the array into the slot (successful write). -/
def storage.saveAll (ns : List Note) : StoredData :=
  StoredData.notes ns

/-- `storage.getById`: `notes.find(note => note.id === id) || null`. -/
def storage.getById (st : StoredData) (id : String) : Option Note :=
  (storage.getAll st).find? (fun note => note.id == id)

/-- The argument of `storage.create`: `Omit<Note, 'id' | 'createdAt' | 'updatedAt'>`. -/
structure NoteInput where
  type : NoteType
  content : String
  tags : Option (List String) := Option.none
  completed : Option Bool := Option.none
  title : Option String := Option.none
deriving DecidableEq, Repr

/-- `storage.create`: reads the collection, materializes the note with the
generated id and both timestamps from `Date.now()`, pushes it onto the end,
saves the whole collection and returns the new note.  `freshId` stands for
`crypto.randomUUID()` and `now` for `Date.now()`. -/
def storage.create (st : StoredData) (input : NoteInput) (freshId : String)
    (now : Nat) : Note × StoredData :=
  let notes := storage.getAll st
  let newNote : Note :=
    { type := input.type
      content := input.content
      tags := input.tags
      completed := input.completed
      title := input.title
      id := freshId
      createdAt := now
      updatedAt := now }
  (newNote, storage.saveAll (notes ++ [newNote]))

/-- The argument of `storage.update`: `Partial<Omit<Note, 'id' | 'createdAt'>>`.
The outer `Option` of each field records whether the key is present in the
bundle (a present key replaces the stored value on merge).  `id` and
`createdAt` cannot occur in the bundle: the source type omits them. -/
structure NoteUpdates where
  type : Option NoteType := Option.none
  content : Option String := Option.none
  updatedAt : Option Nat := Option.none
  tags : Option (Option (List String)) := Option.none
  completed : Option (Option Bool) := Option.none
  title : Option (Option String) := Option.none
deriving DecidableEq, Repr

/-- The merge `{...notes[index], ...updates, updatedAt: Date.now()}`: every
key present in `updates` replaces the stored value, then `updatedAt` is set
to `Date.now()` (overriding a supplied `updatedAt`). -/
def mergeNote (n : Note) (u : NoteUpdates) (now : Nat) : Note :=
  { id := n.id
    type := u.type.getD n.type
    content := u.content.getD n.content
    createdAt := n.createdAt
    updatedAt := now
    tags := u.tags.getD n.tags
    completed := u.completed.getD n.completed
    title := u.title.getD n.title }

/-- `findIndex` on `note.id === id` followed by in-place replacement of that
element: replaces the first note with matching id by its merge, returning the
merged note and the updated list, or `none` when `findIndex` yields `-1`. -/
def updateFirst (id : String) (u : NoteUpdates) (now : Nat) :
    List Note → Option (Note × List Note)
  | [] => Option.none
  | n :: rest =>
    if n.id == id then
      let merged := mergeNote n u now
      Option.some (merged, merged :: rest)
    else
      match updateFirst id u now rest with
      | Option.none => Option.none
      | Option.some (m, rest') => Option.some (m, n :: rest')

/-- `storage.update`: locates the note by id; on `-1` returns null without
writing; otherwise overwrites that slot with the merged note, saves the whole
collection and returns the merged note. -/
def storage.update (st : StoredData) (id : String) (u : NoteUpdates)
    (now : Nat) : Option Note × StoredData :=
  match updateFirst id u now (storage.getAll st) with
  | Option.none => (Option.none, st)
  | Option.some (m, notes') => (Option.some m, storage.saveAll notes')

/-- `storage.delete`: filters out the notes with matching id; when nothing
was removed (same length) returns false without writing, otherwise saves the
filtered collection and returns true. -/
def storage.delete (st : StoredData) (id : String) : Bool × StoredData :=
  let notes := storage.getAll st
  let filtered := notes.filter (fun note => !(note.id == id))
  if filtered.length == notes.length then
    (false, st)
  else
    (true, storage.saveAll filtered)

/-- JavaScript `String.prototype.includes` on lists of characters: `q` occurs
as a contiguous run inside the list. -/
def includesList (q : List Char) : List Char → Bool
  | [] => q.isEmpty
  | c :: rest => List.isPrefixOf q (c :: rest) || includesList q rest

/-- JavaScript `s.includes(q)`. -/
def strIncludes (s q : String) : Bool :=
  includesList q.toList s.toList

/-- JavaScript `s.toLowerCase()` (character-wise lowering). -/
def strToLower (s : String) : String :=
  String.mk (s.toList.map Char.toLower)

/-- JavaScript `s.trim()`: strips leading and trailing whitespace. -/
def strTrim (s : String) : String :=
  String.mk (((s.toList.dropWhile Char.isWhitespace).reverse.dropWhile
    Char.isWhitespace).reverse)

/-- The predicate of the search stage of `storage.filter`:
`contentMatch || titleMatch || tagMatch`, each a lowercase `includes` of
`query`; a missing title or missing tags array gives a falsy (false) match. -/
def noteMatchesQuery (query : String) (note : Note) : Bool :=
  let contentMatch := strIncludes (strToLower note.content) query
  let titleMatch := (note.title.map (fun t => strIncludes (strToLower t) query)).getD false
  let tagMatch :=
    (note.tags.map (fun tags =>
      tags.any (fun tag => strIncludes (strToLower tag) query))).getD false
  contentMatch || titleMatch || tagMatch

/-- `storage.filter`: a pure function of the notes array and the criteria.
The search stage runs only when `filters.searchQuery.trim()` is truthy and
matches the lowercased, untrimmed query; the type stage runs only when
`filters.typeFilter` is truthy (present) and not `'all'`. -/
def storage.filter (notes : List Note) (filters : NoteFilters) : List Note :=
  let filtered := notes
  let filtered :=
    if !(strTrim filters.searchQuery == "") then
      let query := strToLower filters.searchQuery
      filtered.filter (noteMatchesQuery query)
    else
      filtered
  let filtered :=
    match filters.typeFilter with
    | Option.some (TypeFilter.only t) => filtered.filter (fun note => note.type == t)
    | _ => filtered
  filtered

/-! ## The declarative filter predicate (spec-side, for the refinement claim)

`matchesCriteria` renders the specified criterion: the conjunction of the
search restriction (applying only when the query is non-empty after
trimming; a case-insensitive substring match of the query against content
OR title OR any tag) and the type restriction (applying only when a type
filter other than `all` is present). -/

/-- The specified per-note filter criterion as a single conjunction. -/
def matchesCriteria (filters : NoteFilters) (note : Note) : Bool :=
  (if strTrim filters.searchQuery == "" then
    true
   else
    noteMatchesQuery (strToLower filters.searchQuery) note)
  &&
  (match filters.typeFilter with
   | Option.some (TypeFilter.only t) => note.type == t
   | _ => true)

/-- A concrete note used to exercise the filter on explicit inputs. -/
def buyMilkNote : Note :=
  { id := "1", type := NoteType.note, content := "Buy milk",
    createdAt := 0, updatedAt := 0 }

/-- A trace of `storage.update` calls, each with its id, its field bundle
and its `Date.now()` reading, applied in order to the store state. -/
def runUpdates (st : StoredData) : List (String × NoteUpdates × Nat) → StoredData
  | [] => st
  | (id, u, now) :: rest => runUpdates (storage.update st id u now).2 rest

/-- A mutating call of the store: `create`, `update` or `delete`, with the
inputs the collaborator supplies (the clock reading is kept separate). -/
inductive StoreOp where
  | createOp (input : NoteInput) (freshId : String)
  | updateOp (id : String) (u : NoteUpdates)
  | deleteOp (id : String)

/-- The store state after one operation whose `Date.now()` reads `now`. -/
def applyOp (st : StoredData) : StoreOp → Nat → StoredData
  | StoreOp.createOp input freshId, now => (storage.create st input freshId now).2
  | StoreOp.updateOp id u, now => (storage.update st id u now).2
  | StoreOp.deleteOp id, _ => (storage.delete st id).2

/-- A trace of mutating calls, each with its `Date.now()` reading. -/
def runOps (st : StoredData) : List (StoreOp × Nat) → StoredData
  | [] => st
  | (op, now) :: rest => runOps (applyOp st op now) rest

/-- Every stored note satisfies `createdAt ≤ updatedAt`, and no stored
timestamp exceeds the clock reading `t` of the latest operation. -/
def TimeBounded (st : StoredData) (t : Nat) : Prop :=
  ∀ n ∈ storage.getAll st, n.createdAt ≤ n.updatedAt ∧ n.updatedAt ≤ t

/-- C7: `getAll` returns the empty sequence both when no persisted data
exists and when the persisted payload fails to parse; being a total function
into `List Note`, it surfaces no error to the caller in either case. -/
theorem getAll_empty_or_corrupt :
    storage.getAll StoredData.empty = [] ∧ storage.getAll StoredData.corrupt = [] :=
  ⟨rfl, rfl⟩

/-- C10: omitting `typeFilter` (undefined) behaves identically to
`typeFilter = 'all'`: for every list of notes and every search query the two
results coincide. -/
theorem filter_typeFilter_omitted_eq_all (notes : List Note) (q : String) :
    storage.filter notes { searchQuery := q, typeFilter := Option.none } =
      storage.filter notes { searchQuery := q, typeFilter := Option.some TypeFilter.all } :=
  rfl

/-- C9: the search query is matched verbatim, without trimming: the query
`"milk "` (trailing space) is non-empty after trimming, so the search
restriction applies, yet it does not match the note with content
`"Buy milk"`, while the trimmed query `"milk"` does. -/
theorem filter_query_not_trimmed :
    storage.filter [buyMilkNote]
        { searchQuery := "milk ", typeFilter := Option.some TypeFilter.all } = [] ∧
    storage.filter [buyMilkNote]
        { searchQuery := "milk", typeFilter := Option.some TypeFilter.all } = [buyMilkNote] ∧
    (strTrim "milk " == "") = false := by
  refine ⟨by decide, by decide, by decide⟩

/-- C3: `create` returns the materialized note carrying the generated id,
both timestamps stamped to the clock reading (hence equal), and the caller's
fields; it appends that note to the end of the collection and persists the
full appended collection. -/
theorem create_materializes_and_appends (st : StoredData) (input : NoteInput)
    (freshId : String) (now : Nat) :
    (storage.create st input freshId now).1.id = freshId ∧
    (storage.create st input freshId now).1.createdAt = now ∧
    (storage.create st input freshId now).1.updatedAt = now ∧
    (storage.create st input freshId now).1.createdAt =
      (storage.create st input freshId now).1.updatedAt ∧
    (storage.create st input freshId now).1.type = input.type ∧
    (storage.create st input freshId now).1.content = input.content ∧
    (storage.create st input freshId now).1.tags = input.tags ∧
    (storage.create st input freshId now).1.completed = input.completed ∧
    (storage.create st input freshId now).1.title = input.title ∧
    (storage.create st input freshId now).2 =
      storage.saveAll (storage.getAll st ++ [(storage.create st input freshId now).1]) ∧
    storage.getAll (storage.create st input freshId now).2 =
      storage.getAll st ++ [(storage.create st input freshId now).1] :=
  ⟨rfl, rfl, rfl, rfl, rfl, rfl, rfl, rfl, rfl, rfl, rfl⟩

/-- C1: `storage.filter` returns exactly the subsequence of notes satisfying
the specified conjunction `matchesCriteria` (search restriction ANDed with
type restriction, the substring check ORed across content, title and tags),
and with an empty query and type filter `all` it is the identity on the
input sequence. -/
theorem filter_matches_conjunction (notes : List Note) (f : NoteFilters) :
    storage.filter notes f = notes.filter (matchesCriteria f) ∧
    storage.filter notes { searchQuery := "", typeFilter := Option.some TypeFilter.all } = notes := by
  refine ⟨?_, rfl⟩
  unfold storage.filter matchesCriteria
  cases h : (strTrim f.searchQuery == "") with
  | true =>
    simp only [h, Bool.not_true, Bool.false_eq_true, if_false, if_true]
    cases htf : f.typeFilter with
    | none => simp
    | some tf =>
      cases tf with
      | all => simp
      | only t => simp
  | false =>
    simp only [h, Bool.not_false, if_true, if_false]
    cases htf : f.typeFilter with
    | none => simp
    | some tf =>
      cases tf with
      | all => simp
      | only t =>
        show (notes.filter (noteMatchesQuery (strToLower f.searchQuery))).filter
            (fun note => note.type == t) =
          notes.filter (fun note =>
            noteMatchesQuery (strToLower f.searchQuery) note && (note.type == t))
        rw [List.filter_filter]
        exact List.filter_congr (fun n _ => by rw [Bool.and_comm])

/-- `find?` skips a prefix in which nothing satisfies the predicate. -/
theorem find_append_of_none {p : Note → Bool} {l₁ l₂ : List Note}
    (h : l₁.find? p = Option.none) : (l₁ ++ l₂).find? p = l₂.find? p := by
  induction l₁ with
  | nil => rfl
  | cons a l ih =>
    rw [List.find?_cons] at h
    cases hp : p a with
    | true => simp [hp] at h
    | false =>
      simp only [hp] at h
      simp [List.find?_cons, hp, ih h]

/-- C6: `create` followed by `getById` on the returned note's id yields the
very note `create` returned, provided the generated id does not already
occur in the collection. -/
theorem create_then_getById (st : StoredData) (input : NoteInput)
    (freshId : String) (now : Nat)
    (h : freshId ∉ (storage.getAll st).map Note.id) :
    storage.getById (storage.create st input freshId now).2 freshId =
      Option.some (storage.create st input freshId now).1 := by
  have hnone : (storage.getAll st).find? (fun note => note.id == freshId) = Option.none := by
    rw [List.find?_eq_none]
    intro n hn
    simp only [beq_iff_eq]
    intro hid
    exact h (List.mem_map.mpr ⟨n, hn, hid⟩)
  show ((storage.getAll st) ++ [(storage.create st input freshId now).1]).find?
      (fun note => note.id == freshId) = _
  rw [find_append_of_none hnone]
  simp [storage.create]

/-- Witness for C6 on the never-initialized store and a concrete input. -/
theorem create_then_getById_witness :
    "a" ∉ (storage.getAll StoredData.empty).map Note.id ∧
    storage.getById
        (storage.create StoredData.empty
          { type := NoteType.todo, content := "x" } "a" 5).2 "a" =
      Option.some (storage.create StoredData.empty
          { type := NoteType.todo, content := "x" } "a" 5).1 :=
  ⟨by decide, create_then_getById StoredData.empty
    { type := NoteType.todo, content := "x" } "a" 5 (by decide)⟩

/-- `findIndex` yields `-1` when no note carries the id. -/
theorem updateFirst_none_of_absent (id : String) (u : NoteUpdates) (now : Nat)
    {notes : List Note} (h : ∀ n ∈ notes, n.id ≠ id) :
    updateFirst id u now notes = Option.none := by
  induction notes with
  | nil => rfl
  | cons n rest ih =>
    have hn : (n.id == id) = false := by
      simp only [beq_eq_false_iff_ne]
      exact h n (List.mem_cons_self n rest)
    simp only [updateFirst, hn, Bool.false_eq_true, if_false]
    rw [ih (fun m hm => h m (List.mem_cons_of_mem n hm))]

/-- C4: `update` on an id that does not occur in the persisted collection
returns the not-found signal (null) and performs no write: the state is
returned untouched and `getAll` observes the identical collection. -/
theorem update_missing_id_no_write (st : StoredData) (id : String)
    (u : NoteUpdates) (now : Nat)
    (h : id ∉ (storage.getAll st).map Note.id) :
    storage.update st id u now = (Option.none, st) ∧
    storage.getAll (storage.update st id u now).2 = storage.getAll st := by
  have habs : ∀ n ∈ storage.getAll st, n.id ≠ id := by
    intro n hn hid
    exact h (List.mem_map.mpr ⟨n, hn, hid⟩)
  have hu : updateFirst id u now (storage.getAll st) = Option.none :=
    updateFirst_none_of_absent id u now habs
  constructor
  · show (match updateFirst id u now (storage.getAll st) with
      | Option.none => ((Option.none : Option Note), st)
      | Option.some (m, notes') => (Option.some m, storage.saveAll notes')) = (Option.none, st)
    rw [hu]
  · show storage.getAll (match updateFirst id u now (storage.getAll st) with
      | Option.none => ((Option.none : Option Note), st)
      | Option.some (m, notes') => (Option.some m, storage.saveAll notes')).2 = storage.getAll st
    rw [hu]

/-- Witness for C4 on a one-note collection and an id not present in it. -/
theorem update_missing_id_no_write_witness :
    "b" ∉ (storage.getAll (StoredData.notes [buyMilkNote])).map Note.id ∧
    (storage.update (StoredData.notes [buyMilkNote]) "b" { content := Option.some "y" } 7 =
        (Option.none, StoredData.notes [buyMilkNote]) ∧
      storage.getAll (storage.update (StoredData.notes [buyMilkNote]) "b"
          { content := Option.some "y" } 7).2 =
        storage.getAll (StoredData.notes [buyMilkNote])) :=
  ⟨by decide, update_missing_id_no_write (StoredData.notes [buyMilkNote]) "b"
    { content := Option.some "y" } 7 (by decide)⟩

/-- When `find` locates a note, `findIndex`-and-assign replaces that very
note by its merge and returns the merged note. -/
theorem updateFirst_eq_of_find (id : String) (u : NoteUpdates) (now : Nat)
    (old : Note) : ∀ {notes : List Note},
    notes.find? (fun n => n.id == id) = Option.some old →
    ∃ notes', updateFirst id u now notes = Option.some (mergeNote old u now, notes')
  | [], h => by simp [List.find?] at h
  | n :: rest, h => by
    cases hn : (n.id == id) with
    | true =>
      rw [List.find?_cons, hn] at h
      have hno : n = old := by simpa using h
      subst hno
      exact ⟨mergeNote n u now :: rest, by simp [updateFirst, hn]⟩
    | false =>
      rw [List.find?_cons, hn] at h
      obtain ⟨rest', hrest⟩ := updateFirst_eq_of_find id u now old h
      exact ⟨n :: rest', by simp [updateFirst, hn, hrest]⟩

/-- Every note of the list after one in-place replacement keeps the id and
`createdAt` of a note of the original list. -/
theorem updateFirst_preserves (id : String) (u : NoteUpdates) (now : Nat) :
    ∀ {notes notes' : List Note} {m : Note},
    updateFirst id u now notes = Option.some (m, notes') →
    ∀ n' ∈ notes', ∃ n, n ∈ notes ∧ n'.id = n.id ∧ n'.createdAt = n.createdAt := by
  intro notes
  induction notes with
  | nil => intro notes' m h; simp [updateFirst] at h
  | cons n rest ih =>
    intro notes' m h n' hn'
    cases hn : (n.id == id) with
    | true =>
      simp only [updateFirst, hn, if_true] at h
      obtain ⟨hm, hl⟩ : m = mergeNote n u now ∧ mergeNote n u now :: rest = notes' := by
        constructor
        · exact (Prod.mk.injEq _ _ _ _ ▸ Option.some.inj h).1.symm
        · exact (Prod.mk.injEq _ _ _ _ ▸ Option.some.inj h).2
      subst hl
      rcases List.mem_cons.mp hn' with h1 | h2
      · subst h1
        exact ⟨n, List.mem_cons_self n rest, rfl, rfl⟩
      · exact ⟨n', List.mem_cons_of_mem n h2, rfl, rfl⟩
    | false =>
      simp only [updateFirst, hn, Bool.false_eq_true, if_false] at h
      cases hrest : updateFirst id u now rest with
      | none => rw [hrest] at h; exact absurd h (by simp)
      | some p =>
        obtain ⟨m2, rest2⟩ := p
        rw [hrest] at h
        obtain ⟨hm, hl⟩ : m2 = m ∧ n :: rest2 = notes' :=
          ⟨(Prod.mk.injEq _ _ _ _ ▸ Option.some.inj h).1,
           (Prod.mk.injEq _ _ _ _ ▸ Option.some.inj h).2⟩
        subst hl
        rcases List.mem_cons.mp hn' with h1 | h2
        · exact ⟨n, List.mem_cons_self n rest, by rw [h1], by rw [h1]⟩
        · obtain ⟨n0, hn0, hid0, hc0⟩ := ih hrest n' h2
          exact ⟨n0, List.mem_cons_of_mem n hn0, hid0, hc0⟩

/-- Every note stored after one `update` call keeps the id and `createdAt`
of a note stored before it. -/
theorem update_step_preserves (st : StoredData) (id : String) (u : NoteUpdates)
    (now : Nat) :
    ∀ n' ∈ storage.getAll (storage.update st id u now).2,
      ∃ n, n ∈ storage.getAll st ∧ n'.id = n.id ∧ n'.createdAt = n.createdAt := by
  intro n' hn'
  cases hu : updateFirst id u now (storage.getAll st) with
  | none =>
    have hst : (storage.update st id u now).2 = st := by
      show (match updateFirst id u now (storage.getAll st) with
        | Option.none => ((Option.none : Option Note), st)
        | Option.some (m, notes') => (Option.some m, storage.saveAll notes')).2 = st
      rw [hu]
    rw [hst] at hn'
    exact ⟨n', hn', rfl, rfl⟩
  | some p =>
    obtain ⟨m, notes'⟩ := p
    have hst : (storage.update st id u now).2 = storage.saveAll notes' := by
      show (match updateFirst id u now (storage.getAll st) with
        | Option.none => ((Option.none : Option Note), st)
        | Option.some (m, notes') => (Option.some m, storage.saveAll notes')).2 = _
      rw [hu]
    rw [hst] at hn'
    exact updateFirst_preserves id u now hu n' hn'

/-- Composition of `update_step_preserves` over a whole update trace. -/
theorem runUpdates_preserves :
    ∀ (ops : List (String × NoteUpdates × Nat)) (st : StoredData),
    ∀ n' ∈ storage.getAll (runUpdates st ops),
      ∃ n, n ∈ storage.getAll st ∧ n'.id = n.id ∧ n'.createdAt = n.createdAt
  | [], st => fun n' hn' => ⟨n', hn', rfl, rfl⟩
  | (id, u, now) :: rest, st => by
    intro n' hn'
    have hrec := runUpdates_preserves rest (storage.update st id u now).2 n' hn'
    obtain ⟨nmid, hmid, hid1, hc1⟩ := hrec
    obtain ⟨n0, hn0, hid0, hc0⟩ := update_step_preserves st id u now nmid hmid
    exact ⟨n0, hn0, hid1.trans hid0, hc1.trans hc0⟩

/-- C2: the note `update` returns is the merge of the pre-update note, and
that merge keeps the pre-update `id` and `createdAt` (the supplied bundle —
which by the source's type carries neither `id` nor `createdAt`, though it
may carry `updatedAt` — cannot change them); moreover across any trace of
`update` calls every stored note keeps the `createdAt` of a stored note
with its id. -/
theorem update_preserves_id_and_createdAt (st : StoredData) (id : String)
    (u : NoteUpdates) (now : Nat) (old : Note)
    (h : storage.getById st id = Option.some old) :
    (storage.update st id u now).1 = Option.some (mergeNote old u now) ∧
    (mergeNote old u now).id = old.id ∧
    (mergeNote old u now).createdAt = old.createdAt ∧
    ∀ ops, ∀ n' ∈ storage.getAll (runUpdates st ops),
      ∃ n, n ∈ storage.getAll st ∧ n'.id = n.id ∧ n'.createdAt = n.createdAt := by
  obtain ⟨notes', hup⟩ := updateFirst_eq_of_find id u now old h
  refine ⟨?_, rfl, rfl, fun ops => runUpdates_preserves ops st⟩
  show (match updateFirst id u now (storage.getAll st) with
    | Option.none => ((Option.none : Option Note), st)
    | Option.some (m, notes') => (Option.some m, storage.saveAll notes')).1 =
      Option.some (mergeNote old u now)
  rw [hup]

/-- Witness for C2: a bundle that even supplies `updatedAt` leaves `id` and
`createdAt` of the stored note untouched. -/
theorem update_preserves_id_and_createdAt_witness :
    storage.getById (StoredData.notes [buyMilkNote]) "1" = Option.some buyMilkNote ∧
    ((storage.update (StoredData.notes [buyMilkNote]) "1"
        { content := Option.some "Buy oat milk", updatedAt := Option.some 99 } 9).1 =
      Option.some (mergeNote buyMilkNote
        { content := Option.some "Buy oat milk", updatedAt := Option.some 99 } 9) ∧
    (mergeNote buyMilkNote
        { content := Option.some "Buy oat milk", updatedAt := Option.some 99 } 9).id =
      buyMilkNote.id ∧
    (mergeNote buyMilkNote
        { content := Option.some "Buy oat milk", updatedAt := Option.some 99 } 9).createdAt =
      buyMilkNote.createdAt) :=
  ⟨by decide,
    ⟨(update_preserves_id_and_createdAt (StoredData.notes [buyMilkNote]) "1"
      { content := Option.some "Buy oat milk", updatedAt := Option.some 99 } 9
      buyMilkNote (by decide)).1,
     (update_preserves_id_and_createdAt (StoredData.notes [buyMilkNote]) "1"
      { content := Option.some "Buy oat milk", updatedAt := Option.some 99 } 9
      buyMilkNote (by decide)).2.1,
     (update_preserves_id_and_createdAt (StoredData.notes [buyMilkNote]) "1"
      { content := Option.some "Buy oat milk", updatedAt := Option.some 99 } 9
      buyMilkNote (by decide)).2.2.1⟩⟩

/-- Dropping the notes whose id matches shortens a collection with unique
ids by exactly one element when a match exists. -/
theorem filter_keep_length_succ (id : String) :
    ∀ (notes : List Note), ((notes.map Note.id).Nodup) → (∃ n ∈ notes, n.id = id) →
    (notes.filter (fun note => !(note.id == id))).length + 1 = notes.length := by
  intro notes
  induction notes with
  | nil => intro _ h; simp at h
  | cons n rest ih =>
    intro hnodup hex
    rw [List.map_cons, List.nodup_cons] at hnodup
    cases hn : (n.id == id) with
    | true =>
      have hnid : n.id = id := beq_iff_eq.mp hn
      have hrest : rest.filter (fun note => !(note.id == id)) = rest := by
        rw [List.filter_eq_self]
        intro m hm
        simp only [Bool.not_eq_true', beq_eq_false_iff_ne]
        intro hmid
        have : m.id ∈ List.map Note.id rest := List.mem_map_of_mem Note.id hm
        rw [hmid, ← hnid] at this
        exact hnodup.1 this
      simp [List.filter_cons, hn, hrest]
    | false =>
      have hex' : ∃ m ∈ rest, m.id = id := by
        obtain ⟨m, hm, hmid⟩ := hex
        rcases List.mem_cons.mp hm with h1 | h2
        · exact absurd (h1 ▸ hmid) (by simpa using hn)
        · exact ⟨m, h2, hmid⟩
      have := ih hnodup.2 hex'
      simp only [List.filter_cons, hn, Bool.not_false, if_true, List.length_cons]
      omega

/-- C5: on a collection with unique ids, `delete` of a present id removes
exactly the note with that id — the persisted result is the original
sequence with that one note filtered out, one element shorter, every other
note kept — and returns true; `delete` of an absent id returns false and
hands back the state unchanged, without persisting. -/
theorem delete_removes_exactly (st : StoredData) (id : String)
    (hnodup : ((storage.getAll st).map Note.id).Nodup) :
    (id ∈ (storage.getAll st).map Note.id →
      storage.delete st id =
        (true, storage.saveAll
          ((storage.getAll st).filter (fun note => !(note.id == id)))) ∧
      storage.getAll (storage.delete st id).2 =
        (storage.getAll st).filter (fun note => !(note.id == id)) ∧
      (storage.getAll (storage.delete st id).2).length + 1 =
        (storage.getAll st).length ∧
      ∀ n ∈ storage.getAll st, n.id ≠ id →
        n ∈ storage.getAll (storage.delete st id).2) ∧
    (id ∉ (storage.getAll st).map Note.id →
      storage.delete st id = (false, st)) := by
  constructor
  · intro hmem
    obtain ⟨n, hn, hnid⟩ := List.mem_map.mp hmem
    have hlen := filter_keep_length_succ id (storage.getAll st) hnodup ⟨n, hn, hnid⟩
    have hne : (((storage.getAll st).filter
        (fun note => !(note.id == id))).length == (storage.getAll st).length) = false := by
      simp only [beq_eq_false_iff_ne]
      omega
    have hdel : storage.delete st id =
        (true, storage.saveAll
          ((storage.getAll st).filter (fun note => !(note.id == id)))) := by
      unfold storage.delete
      simp only [hne, Bool.false_eq_true, if_false]
    refine ⟨hdel, ?_, ?_, ?_⟩
    · rw [hdel]
      rfl
    · rw [hdel]
      exact hlen
    · intro m hm hmid
      rw [hdel]
      show m ∈ (storage.getAll st).filter (fun note => !(note.id == id))
      rw [List.mem_filter]
      refine ⟨hm, by simp [hmid]⟩
  · intro hmem
    have hall : (storage.getAll st).filter (fun note => !(note.id == id)) =
        storage.getAll st := by
      rw [List.filter_eq_self]
      intro m hm
      simp only [Bool.not_eq_true', beq_eq_false_iff_ne]
      intro hmid
      exact hmem (List.mem_map.mpr ⟨m, hm, hmid⟩)
    unfold storage.delete
    simp only [hall, beq_self_eq_true, if_true]

/-- Witness for C5: deleting the present id "1" succeeds and persists the
filtered collection; deleting the absent id "z" fails and changes nothing. -/
theorem delete_removes_exactly_witness :
    ((storage.getAll (StoredData.notes [buyMilkNote])).map Note.id).Nodup ∧
    "1" ∈ (storage.getAll (StoredData.notes [buyMilkNote])).map Note.id ∧
    storage.delete (StoredData.notes [buyMilkNote]) "1" =
      (true, storage.saveAll ((storage.getAll (StoredData.notes [buyMilkNote])).filter
        (fun note => !(note.id == "1")))) ∧
    "z" ∉ (storage.getAll (StoredData.notes [buyMilkNote])).map Note.id ∧
    storage.delete (StoredData.notes [buyMilkNote]) "z" =
      (false, StoredData.notes [buyMilkNote]) :=
  ⟨by decide, by decide,
    ((delete_removes_exactly (StoredData.notes [buyMilkNote]) "1" (by decide)).1
      (by decide)).1,
    by decide,
    (delete_removes_exactly (StoredData.notes [buyMilkNote]) "z" (by decide)).2
      (by decide)⟩

/-- Members of the list after an in-place replacement are either original
members or the merge of an original member. -/
theorem updateFirst_mem_cases (id : String) (u : NoteUpdates) (now : Nat) :
    ∀ {notes notes' : List Note} {m : Note},
    updateFirst id u now notes = Option.some (m, notes') →
    ∀ n' ∈ notes', n' ∈ notes ∨ ∃ n, n ∈ notes ∧ n' = mergeNote n u now := by
  intro notes
  induction notes with
  | nil => intro notes' m h; simp [updateFirst] at h
  | cons n rest ih =>
    intro notes' m h n' hn'
    cases hn : (n.id == id) with
    | true =>
      simp only [updateFirst, hn, if_true] at h
      have hl : mergeNote n u now :: rest = notes' :=
        (Prod.mk.injEq _ _ _ _ ▸ Option.some.inj h).2
      subst hl
      rcases List.mem_cons.mp hn' with h1 | h2
      · exact Or.inr ⟨n, List.mem_cons_self n rest, h1⟩
      · exact Or.inl (List.mem_cons_of_mem n h2)
    | false =>
      simp only [updateFirst, hn, Bool.false_eq_true, if_false] at h
      cases hrest : updateFirst id u now rest with
      | none => rw [hrest] at h; exact absurd h (by simp)
      | some p =>
        obtain ⟨m2, rest2⟩ := p
        rw [hrest] at h
        have hl : n :: rest2 = notes' :=
          (Prod.mk.injEq _ _ _ _ ▸ Option.some.inj h).2
        subst hl
        rcases List.mem_cons.mp hn' with h1 | h2
        · exact Or.inl (h1 ▸ List.mem_cons_self n rest)
        · rcases ih hrest n' h2 with hin | ⟨n0, hn0, heq⟩
          · exact Or.inl (List.mem_cons_of_mem n hin)
          · exact Or.inr ⟨n0, List.mem_cons_of_mem n hn0, heq⟩

/-- `delete` leaves only notes that were already stored. -/
theorem delete_mem_subset (st : StoredData) (id : String) :
    ∀ n ∈ storage.getAll (storage.delete st id).2, n ∈ storage.getAll st := by
  intro n hn
  unfold storage.delete at hn
  cases hc : (((storage.getAll st).filter
      (fun note => !(note.id == id))).length == (storage.getAll st).length) with
  | true =>
    simp only [hc, if_true] at hn
    exact hn
  | false =>
    simp only [hc, Bool.false_eq_true, if_false] at hn
    exact (List.mem_filter.mp hn).1

/-- One mutating operation preserves the timestamp bounds when its clock
reading is not earlier than the bound. -/
theorem step_bounded (st : StoredData) (t : Nat) (hwf : TimeBounded st t)
    (op : StoreOp) (now : Nat) (hmono : t ≤ now) :
    TimeBounded (applyOp st op now) now := by
  cases op with
  | createOp input freshId =>
    intro n hn
    rcases List.mem_append.mp hn with hold | hnew
    · obtain ⟨h1, h2⟩ := hwf n hold
      exact ⟨h1, Nat.le_trans h2 hmono⟩
    · rw [List.mem_singleton.mp hnew]
      exact ⟨Nat.le_refl now, Nat.le_refl now⟩
  | updateOp id u =>
    intro n hn
    show n.createdAt ≤ n.updatedAt ∧ n.updatedAt ≤ now
    cases hu : updateFirst id u now (storage.getAll st) with
    | none =>
      have hst : (storage.update st id u now).2 = st := by
        show (match updateFirst id u now (storage.getAll st) with
          | Option.none => ((Option.none : Option Note), st)
          | Option.some (m, notes') => (Option.some m, storage.saveAll notes')).2 = st
        rw [hu]
      rw [show applyOp st (StoreOp.updateOp id u) now = (storage.update st id u now).2
        from rfl, hst] at hn
      obtain ⟨h1, h2⟩ := hwf n hn
      exact ⟨h1, Nat.le_trans h2 hmono⟩
    | some p =>
      obtain ⟨m, notes'⟩ := p
      have hst : (storage.update st id u now).2 = storage.saveAll notes' := by
        show (match updateFirst id u now (storage.getAll st) with
          | Option.none => ((Option.none : Option Note), st)
          | Option.some (m, notes') => (Option.some m, storage.saveAll notes')).2 = _
        rw [hu]
      rw [show applyOp st (StoreOp.updateOp id u) now = (storage.update st id u now).2
        from rfl, hst] at hn
      rcases updateFirst_mem_cases id u now hu n hn with hin | ⟨n0, hn0, heq⟩
      · obtain ⟨h1, h2⟩ := hwf n hin
        exact ⟨h1, Nat.le_trans h2 hmono⟩
      · obtain ⟨h1, h2⟩ := hwf n0 hn0
        rw [heq]
        exact ⟨Nat.le_trans (Nat.le_trans h1 h2) hmono, Nat.le_refl now⟩
  | deleteOp id =>
    intro n hn
    have hin := delete_mem_subset st id n hn
    obtain ⟨h1, h2⟩ := hwf n hin
    exact ⟨h1, Nat.le_trans h2 hmono⟩

/-- A whole chronological trace preserves the timestamp bounds. -/
theorem runOps_bounded :
    ∀ (ops : List (StoreOp × Nat)) (st : StoredData) (t : Nat),
    TimeBounded st t → List.Chain (fun a b => a ≤ b) t (ops.map Prod.snd) →
    ∃ t', TimeBounded (runOps st ops) t'
  | [], st, t, hwf, _ => ⟨t, hwf⟩
  | (op, now) :: rest, st, t, hwf, hchain => by
    rw [List.map_cons] at hchain
    obtain ⟨h1, h2⟩ := List.chain_cons.mp hchain
    exact runOps_bounded rest (applyOp st op now) now (step_bounded st t hwf op now h1) h2

/-- C8: `createdAt ≤ updatedAt` holds for every stored note at all times:
a fresh note is created with the two timestamps equal, each operation
(create, update, delete) preserves the time-bounded invariant when its
clock reading is not earlier than the previous ones, and along any
chronological trace of operations every stored note satisfies
`createdAt ≤ updatedAt`. -/
theorem timestamps_invariant (st : StoredData) (t : Nat) (hwf : TimeBounded st t) :
    (∀ op now, t ≤ now → TimeBounded (applyOp st op now) now) ∧
    (∀ input freshId now,
      (storage.create st input freshId now).1.createdAt =
        (storage.create st input freshId now).1.updatedAt) ∧
    (∀ ops, List.Chain (fun a b => a ≤ b) t (ops.map Prod.snd) →
      ∀ n ∈ storage.getAll (runOps st ops), n.createdAt ≤ n.updatedAt) := by
  refine ⟨fun op now hmono => step_bounded st t hwf op now hmono,
    fun input freshId now => rfl, fun ops hchain n hn => ?_⟩
  obtain ⟨t', hwf'⟩ := runOps_bounded ops st t hwf hchain
  exact (hwf' n hn).1

/-- Witness for C8 on a one-note store updated at a later clock reading. -/
theorem timestamps_invariant_witness :
    TimeBounded (StoredData.notes [buyMilkNote]) 0 ∧
    TimeBounded (applyOp (StoredData.notes [buyMilkNote])
      (StoreOp.updateOp "1" { content := Option.some "y" }) 5) 5 := by
  have hw : TimeBounded (StoredData.notes [buyMilkNote]) 0 := by
    intro n hn
    rw [show storage.getAll (StoredData.notes [buyMilkNote]) = [buyMilkNote] from rfl] at hn
    rw [List.mem_singleton.mp hn]
    exact ⟨Nat.le_refl 0, Nat.le_refl 0⟩
  exact ⟨hw, (timestamps_invariant (StoredData.notes [buyMilkNote]) 0 hw).1
    (StoreOp.updateOp "1" { content := Option.some "y" }) 5 (by decide)⟩
